import Mathlib

/-!
Verification of the RFC 6242 NETCONF framing codec of this repository.

The repository ships the tests of the `rfc6242` package
(`netconf/rfc6242/decoder_test.go`), the `codec` wrapper
(`netconf/common/codec/codec.go`), the `common` message/capability
definitions and the test-server session handler, while the body of the
`rfc6242` package itself (the decoder, the frame state machine and the
encoder) is not among the shipped sources.  The frame state machine and
the encoder trailer are therefore modelled from the specification
(sections 4.A, 4.B and 4.D), with the no-delimiter retention rule of EOM
mode fixed by the repository's own decoder tests (`MessageSplitOverBuffer`,
`SmallWrites`, `SwitchWithDanglingEOM`), and the claims are settled against
that model.  Functions that are present in the sources
(`PeerSupportsChunkedFraming`, `Encoder.Encode`, `SessionHandler.handleHello`)
are embedded directly from the Go code.
-/

namespace Rfc6242

/-- Modelled from the spec: the six-byte end-of-message delimiter of RFC 6242
EOM framing, the value `tokenEOM` of the missing rfc6242 source
(spec 4.B.1: "Delimiter: the six-byte sequence `]]>]]>`"). -/
def tokenEOM : List Char := ']' :: ']' :: '>' :: ']' :: ']' :: '>' :: []

/-- begS p s is true when the byte list s starts with the pattern p. -/
def begS : List Char → List Char → Bool
  | [], _ => true
  | _ :: _, [] => false
  | a :: as, b :: bs => a == b && begS as bs

/-- Modelled from the spec: index of the first occurrence of the EOM delimiter
in the buffered bytes (the `bytes.Index(data, tokenEOM)` scan of the missing
decoder source). -/
def findDelim : List Char → Option Nat
  | [] => none
  | c :: rest =>
    if begS tokenEOM (c :: rest) then some 0
    else (findDelim rest).map (fun n => n + 1)

/-- dpsAt j s is true when the last j bytes of s are exactly the first j
bytes of the EOM delimiter (a "delimiter-prefix suffix" of length j ≤ 5). -/
def dpsAt (j : Nat) (s : List Char) : Bool :=
  decide (j ≤ 5) && decide (j ≤ s.length) &&
    decide (s.drop (s.length - j) = tokenEOM.take j)

/-- Modelled from the spec and the decoder tests: the number of bytes the EOM
scanner must retain when no delimiter is in the buffer — the length of the
longest suffix of the buffer that is a prefix of the delimiter (at most 5
bytes, so a delimiter split across reads is never lost, while complete
non-delimiter data such as a whole `<hello/>` is emitted at once, as the
tests `MessageSplitOverBuffer` and `SwitchWithDanglingEOM` require). -/
def ovl (s : List Char) : Nat :=
  if dpsAt 5 s then 5
  else if dpsAt 4 s then 4
  else if dpsAt 3 s then 3
  else if dpsAt 2 s then 2
  else if dpsAt 1 s then 1
  else 0

/-- Framing mode of one decoder direction (spec section 3). -/
inductive Mode
  | eom
  | chunked
deriving DecidableEq

/-- Chunked-mode phase: awaiting a chunk header / end-of-chunks marker, or
inside a chunk body with the given number of body bytes still to emit
(spec section 3, "Chunk cursor"). -/
inductive Phase
  | header
  | body (remaining : Nat)
deriving DecidableEq

/-- Modelled from the spec: the state of the decoder between two invocations
of the frame state machine.  `skip` records the one-shot allowance to skip a
leading EOM delimiter right after a switch to chunked framing (spec 4.B.3);
`midMsg` records whether bytes of a not-yet-terminated message have been seen
(the `eofOK` distinction between `Eof` and `UnexpectedEof`); `cur` is the
payload of the in-progress message and `msgs` the completed messages. -/
structure DecSt where
  mode : Mode
  phase : Phase
  skip : Bool
  midMsg : Bool
  cur : List Char
  msgs : List (List Char)
deriving DecidableEq

/-- Terminal result of a decoding run (spec section 7): clean end of stream,
transport closed mid-message, or a framing error, each carrying the messages
completed so far. -/
inductive Outcome
  | ok (msgs : List (List Char))
  | uEof (msgs : List (List Char))
  | ferr (msgs : List (List Char)) (reason : String)
deriving DecidableEq

/-- Result of one frame-state-machine invocation: request more data, consume
`adv` bytes from the head of the buffer moving to state `st'`, or stop with a
terminal outcome. -/
inductive StepRes
  | more
  | step (adv : Nat) (st' : DecSt)
  | done (o : Outcome)
deriving DecidableEq

/-- pushTok st tok extends the in-progress message with emitted payload
bytes. -/
def pushTok (st : DecSt) (tok : List Char) : DecSt :=
  { st with cur := st.cur ++ tok, midMsg := st.midMsg || !tok.isEmpty }

/-- flushMsg st tok terminates the in-progress message at a frame boundary:
the message `st.cur ++ tok` is appended to the completed messages. -/
def flushMsg (st : DecSt) (tok : List Char) : DecSt :=
  { st with cur := [], midMsg := false, msgs := st.msgs ++ [st.cur ++ tok] }

/-- Result of parsing one chunk header / end-of-chunks marker from the head
of the buffer (spec 4.B.2). -/
inductive HeadRes
  | more
  | chunk (size adv : Nat)
  | eoc
  | bad (reason : String)
deriving DecidableEq

/-- Modelled from the spec (4.B.2): parse `\n#` followed either by `#\n`
(end-of-chunks) or by a decimal chunk size without leading zero in
`[1, 4294967295]` followed by `\n`.  Returns `.more` whenever the buffered
bytes are a proper prefix of a well-formed header, so header bytes may
straddle read boundaries. -/
def parseHeader (buf : List Char) : HeadRes :=
  match buf with
  | [] => .more
  | c :: rest =>
    if c ≠ '\n' then .bad "expected newline" else
    match rest with
    | [] => .more
    | c2 :: rest2 =>
      if c2 ≠ '#' then .bad "expected hash" else
      match rest2 with
      | [] => .more
      | c3 :: rest3 =>
        if c3 = '#' then
          match rest3 with
          | [] => .more
          | c4 :: _ => if c4 = '\n' then .eoc else .bad "expected newline after hashes"
        else if c3.isDigit then
          match rest3.dropWhile (fun ch => ch.isDigit) with
          | [] => .more
          | c5 :: _ =>
            if c5 ≠ '\n' then .bad "invalid chunk size" else
            if c3 = '0' then .bad "zero or zero-led chunk size" else
            if (c3 :: rest3.takeWhile (fun ch => ch.isDigit)).foldl
                (fun a ch => a * 10 + (ch.toNat - 48)) 0 ≤ 4294967295 then
              .chunk
                ((c3 :: rest3.takeWhile (fun ch => ch.isDigit)).foldl
                  (fun a ch => a * 10 + (ch.toNat - 48)) 0)
                ((c3 :: rest3.takeWhile (fun ch => ch.isDigit)).length + 3)
            else .bad "chunk size out of range"
        else .bad "invalid chunk header"

/-- Modelled from the spec (4.B.1): one EOM-mode invocation of the frame
state machine.  A full six-byte delimiter match emits a message; otherwise
everything except the longest delimiter-prefix suffix is emitted; with
`atEnd` set, an empty clean buffer yields `Eof` and anything mid-message
yields `UnexpectedEof`. -/
def eomStep (st : DecSt) (buf : List Char) (atEnd : Bool) : StepRes :=
  match findDelim buf with
  | some k => .step (k + 6) (flushMsg st (buf.take k))
  | none =>
    if atEnd then
      if buf.isEmpty then
        if st.midMsg then .done (.uEof st.msgs) else .done (.ok st.msgs)
      else .done (.uEof st.msgs)
    else
      if buf.length ≤ ovl buf then .more
      else .step (buf.length - ovl buf) (pushTok st (buf.take (buf.length - ovl buf)))

/-- Modelled from the spec (4.B.2, InBody): stream up to `remaining` buffered
bytes as chunk-body payload, returning to ExpectHeader when the chunk is
exhausted. -/
def bodyStep (st : DecSt) (n : Nat) (buf : List Char) (atEnd : Bool) : StepRes :=
  if n = 0 then .more
  else
    match buf with
    | [] => if atEnd then .done (.uEof st.msgs) else .more
    | _ :: _ =>
      .step (min n buf.length)
        { pushTok st (buf.take (min n buf.length)) with
            phase := if min n buf.length = n then Phase.header
                     else Phase.body (n - min n buf.length) }

/-- Modelled from the spec (4.B.2 ExpectHeader and 4.B.3): parse a chunk
header or the end-of-chunks marker at the head of the buffer, first skipping
one leading EOM delimiter (completing the pending message, if any) when the
one-shot post-switch allowance is armed. -/
def headerStep (st : DecSt) (buf : List Char) (atEnd : Bool) : StepRes :=
  match buf with
  | [] =>
    if atEnd then
      if st.midMsg then .done (.uEof st.msgs) else .done (.ok st.msgs)
    else .more
  | _ :: _ =>
    if st.skip && begS tokenEOM buf then
      .step 6 { (if st.midMsg then flushMsg st [] else st) with skip := false }
    else if st.skip && begS buf tokenEOM then
      if atEnd then .done (.uEof st.msgs) else .more
    else
      match parseHeader buf with
      | .more => if atEnd then .done (.uEof st.msgs) else .more
      | .bad r => .done (.ferr st.msgs r)
      | .eoc => .step 4 (flushMsg { st with skip := false } [])
      | .chunk n adv =>
        .step adv { st with phase := Phase.body n, midMsg := true, skip := false }

/-- Modelled from the spec (4.B): one invocation of the frame state machine
on the buffered bytes, dispatching on the framing mode and, in chunked mode,
on the chunk-cursor phase. -/
def fsmStep (st : DecSt) (buf : List Char) (atEnd : Bool) : StepRes :=
  match st.mode with
  | .eom => eomStep st buf atEnd
  | .chunked =>
    match st.phase with
    | .body n => bodyStep st n buf atEnd
    | .header => headerStep st buf atEnd

/-- Result of draining the buffer: quiescent (the state machine wants more
data, with the retained residual bytes), or terminal. -/
inductive DrainRes
  | more (st : DecSt) (buf : List Char)
  | done (o : Outcome)
deriving DecidableEq

/-- drainF runs the frame state machine repeatedly on the buffer until it
requests more data or stops, with explicit fuel (every consuming step drops
at least one buffered byte, so `buf.length + 1` fuel always suffices). -/
def drainF : Nat → DecSt → List Char → Bool → DrainRes
  | 0, st, buf, _ => .more st buf
  | f + 1, st, buf, atEnd =>
    match fsmStep st buf atEnd with
    | .more => .more st buf
    | .done o => .done o
    | .step adv st' => drainF f st' (buf.drop adv) atEnd

/-- Drain runs the frame state machine on the buffer to quiescence (the
scanner's inner loop between two reads from the transport). -/
def Drain (st : DecSt) (buf : List Char) (atEnd : Bool) : DrainRes :=
  drainF (buf.length + 1) st buf atEnd

/-- Modelled from the spec (4.A): the scanner loop.  Each transport read is
appended to the retained buffer and the state machine is drained; when the
reads are exhausted the machine runs once more with `atEnd` set
(spec: "the Scanner calls the FSM one last time with an `atEnd=true` flag"). -/
def runReads (st : DecSt) (buf : List Char) : List (List Char) → Outcome
  | [] =>
    match Drain st buf true with
    | .done o => o
    | .more st' _ => .uEof st'.msgs
  | r :: rs =>
    match Drain st (buf ++ r) false with
    | .done o => o
    | .more st' res => runReads st' res rs

/-- decodeReads st rs decodes the framed byte stream delivered by the
transport as the list of reads rs, starting from decoder state st. -/
def decodeReads (st : DecSt) (rs : List (List Char)) : Outcome :=
  runReads st [] rs

/-- Modelled from the spec (4.B.3): `SetChunkedFraming` on the decoder side
switches the mode to chunked, resets the phase to ExpectHeader, arms the
one-shot skip of a leading dangling EOM delimiter, and does not discard any
buffered bytes or pending message state. -/
def setChunked (st : DecSt) : DecSt :=
  { st with mode := .chunked, phase := .header, skip := true }

/-- Initial decoder state: EOM framing, clean (spec section 3: "Initial value
is `EndOfMessage`"). -/
def eomInit : DecSt :=
  { mode := .eom, phase := .header, skip := false, midMsg := false, cur := [], msgs := [] }

/-- Event of a decoding session script: a transport read, or the session
layer switching the decoder to chunked framing between reads. -/
inductive Ev
  | rd (s : List Char)
  | sw

/-- runScript runs a session script (reads interleaved with a framing
switch) against the decoder, mirroring the `TestFramerTransition` driver. -/
def runScript (st : DecSt) (buf : List Char) : List Ev → Outcome
  | [] =>
    match Drain st buf true with
    | .done o => o
    | .more st' _ => .uEof st'.msgs
  | .sw :: evs => runScript (setChunked st) buf evs
  | .rd r :: evs =>
    match Drain st (buf ++ r) false with
    | .done o => o
    | .more st' res => runScript st' res evs

/-- Modelled from the spec (4.D, section 6): the rfc6242 encoder in EOM mode
writes the message body followed by the six-byte trailer `]]>]]>`. -/
def encodeEOM (p : List Char) : List Char := p ++ tokenEOM

/-- Capability URN advertising NETCONF base 1.1 support, from
`common.CapBase11` in the sources. -/
def CapBase11 : String := "urn:ietf:params:netconf:base:1.1"

/-- PeerSupportsChunkedFraming, embedded from
`netconf/common/codec/codec.go`: loop over the capability list and return
true on an exact match with `common.CapBase11`. -/
def PeerSupportsChunkedFraming : List String → Bool
  | [] => false
  | c :: rest => if c = CapBase11 then true else PeerSupportsChunkedFraming rest

/-- handleHelloEnablesChunked, embedded from `SessionHandler.handleHello` in
the test-server source: chunked framing is enabled exactly when both the
client's and the server's capability lists pass
`PeerSupportsChunkedFraming`. -/
def handleHelloEnablesChunked (clientCaps serverCaps : List String) : Bool :=
  PeerSupportsChunkedFraming clientCaps && PeerSupportsChunkedFraming serverCaps

/-- Observable effect of one `codec.Encoder.Encode` call: the returned error
(if any) and how many times `EndOfMessage` was invoked. -/
structure EncodeEffect where
  result : Option String
  eomCalls : Nat
deriving DecidableEq

/-- codecEncode, embedded from `Encoder.Encode` in
`netconf/common/codec/codec.go`: run the XML serializer; on error return it
without writing a trailer; on success call `EndOfMessage` once and return its
result.  The two collaborator outcomes are the parameters. -/
def codecEncode (xmlResult : Option String) (eomResult : Option String) : EncodeEffect :=
  match xmlResult with
  | some e => { result := some e, eomCalls := 0 }
  | none => { result := eomResult, eomCalls := 1 }

/-! ### Properties of begS -/

theorem begS_iff {p s : List Char} : begS p s = true ↔ ∃ t, s = p ++ t := by
  induction p generalizing s with
  | nil => simp [begS]
  | cons a as ih =>
    cases s with
    | nil =>
      simp only [begS, List.cons_append]
      constructor
      · intro h; cases h
      · rintro ⟨t, h⟩; cases h
    | cons b bs =>
      simp only [begS, Bool.and_eq_true, beq_iff_eq, List.cons_append, List.cons.injEq]
      constructor
      · rintro ⟨h1, h2⟩
        obtain ⟨t, rfl⟩ := ih.1 h2
        exact ⟨t, h1.symm, rfl⟩
      · rintro ⟨t, h1, h2⟩
        exact ⟨h1.symm, ih.2 ⟨t, h2⟩⟩

theorem begS_iff_take {p s : List Char} :
    begS p s = true ↔ p.length ≤ s.length ∧ s.take p.length = p := by
  rw [begS_iff]
  constructor
  · rintro ⟨t, rfl⟩
    constructor
    · simp
    · rw [List.take_append_of_le_length (le_refl _), List.take_length]
  · rintro ⟨hl, ht⟩
    refine ⟨s.drop p.length, ?_⟩
    conv_lhs => rw [← List.take_append_drop p.length s]
    rw [ht]

theorem begS_length {p s : List Char} (h : begS p s = true) : p.length ≤ s.length :=
  (begS_iff_take.1 h).1

theorem begS_append_right {p s : List Char} (v : List Char) (h : begS p s = true) :
    begS p (s ++ v) = true := by
  obtain ⟨t, rfl⟩ := begS_iff.1 h
  exact begS_iff.2 ⟨t ++ v, by simp⟩

theorem begS_of_append_le {p s v : List Char} (h : begS p (s ++ v) = true)
    (hl : p.length ≤ s.length) : begS p s = true := by
  obtain ⟨-, ht⟩ := begS_iff_take.1 h
  rw [List.take_append_of_le_length hl] at ht
  exact begS_iff_take.2 ⟨hl, ht⟩

theorem begS_mutual_false {p u : List Char} (v : List Char)
    (h1 : begS p u = false) (h2 : begS u p = false) :
    begS p (u ++ v) = false ∧ begS (u ++ v) p = false := by
  induction u generalizing p with
  | nil => simp [begS] at h2
  | cons a as ih =>
    cases p with
    | nil => simp [begS] at h1
    | cons b bs =>
      simp only [begS, Bool.and_eq_false_iff, beq_eq_false_iff_ne, ne_eq,
        List.cons_append] at h1 h2 ⊢
      by_cases hab : b = a
      · subst hab
        rcases h1 with h1 | h1
        · exact absurd rfl h1
        · rcases h2 with h2 | h2
          · exact absurd rfl h2
          · obtain ⟨c1, c2⟩ := ih h1 h2
            exact ⟨Or.inr c1, Or.inr c2⟩
      · exact ⟨Or.inl hab, Or.inl fun h => hab h.symm⟩

/-! ### Properties of findDelim -/

theorem findDelim_cons_pos {c : Char} {rest : List Char}
    (h : begS tokenEOM (c :: rest) = true) : findDelim (c :: rest) = some 0 := by
  simp only [findDelim, h, if_true]

theorem findDelim_cons_neg {c : Char} {rest : List Char}
    (h : begS tokenEOM (c :: rest) = false) :
    findDelim (c :: rest) = (findDelim rest).map (fun n => n + 1) := by
  simp only [findDelim, h, Bool.false_eq_true, if_false]

theorem findDelim_none_iff {s : List Char} :
    findDelim s = none ↔ ∀ j, begS tokenEOM (s.drop j) = false := by
  induction s with
  | nil =>
    simp only [findDelim, List.drop_nil, true_iff]
    intro j
    rfl
  | cons c rest ih =>
    by_cases h : begS tokenEOM (c :: rest) = true
    · rw [findDelim_cons_pos h]
      constructor
      · intro hc; cases hc
      · intro hall
        have := hall 0
        simp only [List.drop_zero] at this
        rw [h] at this; cases this
    · rw [findDelim_cons_neg (eq_false_of_ne_true h), Option.map_eq_none', ih]
      constructor
      · intro hall j
        cases j with
        | zero => simpa using eq_false_of_ne_true h
        | succ j => simpa using hall j
      · intro hall j
        simpa using hall (j + 1)

theorem findDelim_some_begS {s : List Char} {k : Nat} (h : findDelim s = some k) :
    begS tokenEOM (s.drop k) = true := by
  induction s generalizing k with
  | nil => cases h
  | cons c rest ih =>
    simp only [findDelim] at h
    by_cases hb : begS tokenEOM (c :: rest) = true
    · rw [if_pos hb] at h
      cases h
      simpa using hb
    · rw [if_neg hb] at h
      rw [Option.map_eq_some'] at h
      obtain ⟨k', hk', rfl⟩ := h
      simpa using ih hk'

theorem findDelim_some_min {s : List Char} {k : Nat} (h : findDelim s = some k) :
    ∀ j, j < k → begS tokenEOM (s.drop j) = false := by
  induction s generalizing k with
  | nil => cases h
  | cons c rest ih =>
    simp only [findDelim] at h
    by_cases hb : begS tokenEOM (c :: rest) = true
    · rw [if_pos hb] at h
      cases h
      intro j hj; omega
    · rw [if_neg hb] at h
      rw [Option.map_eq_some'] at h
      obtain ⟨k', hk', rfl⟩ := h
      intro j hj
      cases j with
      | zero => simpa using eq_false_of_ne_true hb
      | succ j => simpa using ih hk' j (by omega)

theorem findDelim_eq_some_of {s : List Char} {k : Nat}
    (h1 : begS tokenEOM (s.drop k) = true)
    (h2 : ∀ j, j < k → begS tokenEOM (s.drop j) = false) :
    findDelim s = some k := by
  induction s generalizing k with
  | nil =>
    rw [List.drop_nil] at h1
    cases h1
  | cons c rest ih =>
    simp only [findDelim]
    cases k with
    | zero =>
      rw [List.drop_zero] at h1
      rw [if_pos h1]
    | succ k =>
      have h0 : begS tokenEOM (c :: rest) = false := by
        simpa using h2 0 (by omega)
      rw [if_neg (by simp [h0])]
      have : findDelim rest = some k := by
        apply ih
        · simpa using h1
        · intro j hj
          simpa using h2 (j + 1) (by omega)
      rw [this, Option.map_some']

theorem tokenEOM_length : tokenEOM.length = 6 := rfl

theorem findDelim_some_le {s : List Char} {k : Nat} (h : findDelim s = some k) :
    k + 6 ≤ s.length := by
  have := begS_length (findDelim_some_begS h)
  rw [tokenEOM_length, List.length_drop] at this
  have hk : k ≤ s.length := by
    by_contra hk
    push_neg at hk
    omega
  omega

theorem findDelim_append_some {u : List Char} (v : List Char) {k : Nat}
    (h : findDelim u = some k) : findDelim (u ++ v) = some k := by
  have hle := findDelim_some_le h
  apply findDelim_eq_some_of
  · rw [List.drop_append_of_le_length (by omega)]
    exact begS_append_right v (findDelim_some_begS h)
  · intro j hj
    have hju : j + 6 ≤ u.length := by omega
    rw [List.drop_append_of_le_length (by omega)]
    apply eq_false_of_ne_true
    intro hc
    have := begS_of_append_le hc (by rw [tokenEOM_length, List.length_drop]; omega)
    rw [findDelim_some_min h j hj] at this
    cases this

theorem findDelim_append_shift {e s : List Char}
    (h : ∀ j, j < e.length → begS tokenEOM ((e ++ s).drop j) = false) :
    findDelim (e ++ s) = (findDelim s).map (fun n => n + e.length) := by
  induction e with
  | nil => simp
  | cons a as ih =>
    have h0 : begS tokenEOM (a :: (as ++ s)) = false := by
      simpa using h 0 (by simp)
    have hrec : findDelim (as ++ s) = (findDelim s).map (fun n => n + as.length) := by
      apply ih
      intro j hj
      have := h (j + 1) (by simp only [List.length_cons]; omega)
      simpa using this
    rw [List.cons_append, findDelim_cons_neg h0, hrec]
    cases findDelim s with
    | none => simp
    | some k => simp; omega

theorem findDelim_drop_none {s : List Char} (n : Nat) (h : findDelim s = none) :
    findDelim (s.drop n) = none := by
  rw [findDelim_none_iff] at h ⊢
  intro j
  rw [List.drop_drop]
  exact h (n + j)

/-! ### Properties of the delimiter-prefix-suffix overlap -/

theorem dpsAt_iff {j : Nat} {s : List Char} :
    dpsAt j s = true ↔ j ≤ 5 ∧ j ≤ s.length ∧ s.drop (s.length - j) = tokenEOM.take j := by
  simp [dpsAt, Bool.and_eq_true, decide_eq_true_eq, and_assoc]

theorem dpsAt_zero (s : List Char) : dpsAt 0 s = true := by
  rw [dpsAt_iff]
  refine ⟨by omega, by omega, ?_⟩
  rw [Nat.sub_zero, List.drop_length, List.take_zero]

theorem ovl_le_five (s : List Char) : ovl s ≤ 5 := by
  unfold ovl; split_ifs <;> omega

theorem ovl_le_length (s : List Char) : ovl s ≤ s.length := by
  unfold ovl
  split_ifs with h1 h2 h3 h4 h5
  · exact (dpsAt_iff.1 h1).2.1
  · exact (dpsAt_iff.1 h2).2.1
  · exact (dpsAt_iff.1 h3).2.1
  · exact (dpsAt_iff.1 h4).2.1
  · exact (dpsAt_iff.1 h5).2.1
  · omega

theorem dpsAt_ovl (s : List Char) : dpsAt (ovl s) s = true := by
  unfold ovl
  split_ifs with h1 h2 h3 h4 h5
  · exact h1
  · exact h2
  · exact h3
  · exact h4
  · exact h5
  · exact dpsAt_zero s

theorem ovl_ge {j : Nat} {s : List Char} (h : dpsAt j s = true) : j ≤ ovl s := by
  have hj5 : j ≤ 5 := (dpsAt_iff.1 h).1
  unfold ovl
  interval_cases j <;> split_ifs <;> simp_all

theorem drop_ovl (s : List Char) : s.drop (s.length - ovl s) = tokenEOM.take (ovl s) :=
  (dpsAt_iff.1 (dpsAt_ovl s)).2.2

theorem dpsAt_append_within {j : Nat} {u v : List Char} (hj : j ≤ v.length) :
    dpsAt j (u ++ v) = true ↔ dpsAt j v = true := by
  rw [dpsAt_iff, dpsAt_iff]
  have harith : u.length + v.length - j = u.length + (v.length - j) := by omega
  constructor
  · rintro ⟨h5, -, hd⟩
    refine ⟨h5, hj, ?_⟩
    rw [← hd, List.length_append, harith, List.drop_append]
  · rintro ⟨h5, -, hd⟩
    refine ⟨h5, by rw [List.length_append]; omega, ?_⟩
    rw [List.length_append, harith, List.drop_append, hd]

theorem dpsAt_append_long {j : Nat} {u v : List Char} (h : dpsAt j (u ++ v) = true)
    (hv : v.length ≤ j) : dpsAt (j - v.length) u = true := by
  obtain ⟨h5, hlen, hd⟩ := dpsAt_iff.1 h
  rw [List.length_append] at hlen hd
  have harith : u.length + v.length - j = u.length - (j - v.length) := by omega
  rw [harith, List.drop_append_of_le_length (by omega)] at hd
  have hlen2 : (u.drop (u.length - (j - v.length))).length = j - v.length := by
    rw [List.length_drop]; omega
  have h2 := congrArg (List.take (j - v.length)) hd
  rw [List.take_append_of_le_length (le_of_eq hlen2.symm), List.take_take] at h2
  have hmin : min (j - v.length) j = j - v.length := by omega
  rw [hmin, List.take_of_length_le (le_of_eq hlen2)] at h2
  rw [dpsAt_iff]
  exact ⟨by omega, by omega, h2⟩

theorem ovl_take_tokenEOM {o : Nat} (h : o ≤ 5) : ovl (tokenEOM.take o) = o := by
  interval_cases o <;> decide

theorem findDelim_take_tokenEOM {o : Nat} (h : o ≤ 5) : findDelim (tokenEOM.take o) = none := by
  interval_cases o <;> decide

theorem length_take_tokenEOM {o : Nat} (h : o ≤ 6) : (tokenEOM.take o).length = o := by
  rw [List.length_take, tokenEOM_length]; omega

/-! ### Delimiter occurrences that straddle the retained region -/

theorem occ_bound {u v : List Char} {j : Nat} (hu : findDelim u = none)
    (hocc : begS tokenEOM ((u ++ v).drop j) = true) : u.length - ovl u ≤ j := by
  by_cases hj : u.length ≤ j
  · omega
  push_neg at hj
  by_cases hj6 : j + 6 ≤ u.length
  · exfalso
    rw [List.drop_append_of_le_length (by omega)] at hocc
    have : begS tokenEOM (u.drop j) = true :=
      begS_of_append_le hocc (by rw [tokenEOM_length, List.length_drop]; omega)
    rw [findDelim_none_iff.1 hu j] at this
    cases this
  · push_neg at hj6
    have hdps : dpsAt (u.length - j) u = true := by
      rw [dpsAt_iff]
      refine ⟨by omega, by omega, ?_⟩
      obtain ⟨t, ht⟩ := begS_iff.1 hocc
      rw [List.drop_append_of_le_length (by omega)] at ht
      have hlen2 : (u.drop j).length = u.length - j := by rw [List.length_drop]
      have h2 := congrArg (List.take (u.length - j)) ht
      rw [List.take_append_of_le_length (le_of_eq hlen2.symm),
        List.take_of_length_le (le_of_eq hlen2),
        List.take_append_of_le_length (by rw [tokenEOM_length]; omega)] at h2
      have harith : u.length - (u.length - j) = j := by omega
      rw [harith]
      exact h2
    have := ovl_ge hdps
    omega

theorem findDelim_encodeEOM {p : List Char} (hp : findDelim p = none)
    (h3 : dpsAt 3 p = false) : findDelim (p ++ tokenEOM) = some p.length := by
  have hside : ∀ j, j < p.length → begS tokenEOM ((p ++ tokenEOM).drop j) = false := by
    intro j hj
    apply eq_false_of_ne_true
    intro hocc
    by_cases hj6 : j + 6 ≤ p.length
    · rw [List.drop_append_of_le_length (by omega)] at hocc
      have : begS tokenEOM (p.drop j) = true :=
        begS_of_append_le hocc (by rw [tokenEOM_length, List.length_drop]; omega)
      rw [findDelim_none_iff.1 hp j] at this
      cases this
    · push_neg at hj6
      obtain ⟨t, ht⟩ := begS_iff.1 hocc
      rw [List.drop_append_of_le_length (by omega)] at ht
      have hm1 : 1 ≤ p.length - j := by omega
      have hm5 : p.length - j ≤ 5 := by omega
      have hlen2 : (p.drop j).length = p.length - j := by rw [List.length_drop]
      have hfront : p.drop j = tokenEOM.take (p.length - j) := by
        have h2 := congrArg (List.take (p.length - j)) ht
        rw [List.take_append_of_le_length (le_of_eq hlen2.symm),
          List.take_of_length_le (le_of_eq hlen2),
          List.take_append_of_le_length (by rw [tokenEOM_length]; omega)] at h2
        exact h2
      have hrest : begS (tokenEOM.drop (p.length - j)) tokenEOM = true := by
        have h2 := congrArg (List.drop (p.length - j)) ht
        rw [List.drop_append_of_le_length (le_of_eq hlen2.symm),
          List.drop_of_length_le (le_of_eq hlen2),
          List.drop_append_of_le_length (by rw [tokenEOM_length]; omega)] at h2
        simp only [List.nil_append] at h2
        exact begS_iff.2 ⟨t, h2⟩
      have hcase : p.length - j = 1 ∨ p.length - j = 2 ∨ p.length - j = 3 ∨
          p.length - j = 4 ∨ p.length - j = 5 := by omega
      rcases hcase with hc | hc | hc | hc | hc
      · rw [hc, show begS (tokenEOM.drop 1) tokenEOM = false from by decide] at hrest
        cases hrest
      · rw [hc, show begS (tokenEOM.drop 2) tokenEOM = false from by decide] at hrest
        cases hrest
      · have : dpsAt 3 p = true := by
          rw [dpsAt_iff]
          refine ⟨by omega, by omega, ?_⟩
          have harith : p.length - 3 = j := by omega
          rw [harith, hfront, hc]
        rw [h3] at this
        cases this
      · rw [hc, show begS (tokenEOM.drop 4) tokenEOM = false from by decide] at hrest
        cases hrest
      · rw [hc, show begS (tokenEOM.drop 5) tokenEOM = false from by decide] at hrest
        cases hrest
  rw [findDelim_append_shift hside, show findDelim tokenEOM = some 0 from by decide,
    Option.map_some']
  simp

/-! ### Structural bounds of one state-machine step -/

theorem parseHeader_chunk_bounds {buf : List Char} {n adv : Nat}
    (h : parseHeader buf = .chunk n adv) : 1 ≤ adv ∧ adv ≤ buf.length := by
  unfold parseHeader at h
  split at h
  · cases h
  next c rest =>
  split at h
  · cases h
  split at h
  · cases h
  next c2 rest2 =>
  split at h
  · cases h
  split at h
  · cases h
  next c3 rest3 =>
  split at h
  · split at h
    · cases h
    · split at h <;> cases h
  split at h
  · split at h
    · cases h
    next c5 tail heq =>
      split at h
      · cases h
      split at h
      · cases h
      split at h
      · injection h with _ hadv
        have hsplit : (rest3.takeWhile (fun ch => ch.isDigit)).length +
            (rest3.dropWhile (fun ch => ch.isDigit)).length = rest3.length := by
          conv_rhs => rw [← List.takeWhile_append_dropWhile (p := fun ch => ch.isDigit) (l := rest3)]
          rw [List.length_append]
        rw [heq] at hsplit
        simp only [List.length_cons] at hsplit hadv ⊢
        omega
      · cases h
  · cases h

theorem parseHeader_eoc_bounds {buf : List Char} (h : parseHeader buf = .eoc) :
    4 ≤ buf.length := by
  unfold parseHeader at h
  split at h
  · cases h
  next c rest =>
  split at h
  · cases h
  split at h
  · cases h
  next c2 rest2 =>
  split at h
  · cases h
  split at h
  · cases h
  next c3 rest3 =>
  split at h
  · split at h
    · cases h
    next c4 tail =>
      split at h
      · simp only [List.length_cons]
        omega
      · cases h
  split at h
  · split at h
    · cases h
    · split at h
      · cases h
      split at h
      · cases h
      split at h <;> cases h
  · cases h

theorem eomStep_step_bounds {st : DecSt} {buf : List Char} {ae : Bool} {adv : Nat}
    {st' : DecSt} (h : eomStep st buf ae = .step adv st') :
    1 ≤ adv ∧ adv ≤ buf.length := by
  unfold eomStep at h
  split at h
  next k hk =>
    injection h with hadv
    have := findDelim_some_le hk
    omega
  · split at h
    · split at h
      · split at h <;> cases h
      · cases h
    · split at h
      · cases h
      next hlt =>
        injection h with hadv
        omega

theorem bodyStep_step_bounds {st : DecSt} {n : Nat} {buf : List Char} {ae : Bool}
    {adv : Nat} {st' : DecSt} (h : bodyStep st n buf ae = .step adv st') :
    1 ≤ adv ∧ adv ≤ buf.length := by
  unfold bodyStep at h
  split at h
  · cases h
  next hn =>
  split at h
  · split at h <;> cases h
  next hd tail =>
    injection h with hadv
    simp only [List.length_cons] at *
    omega

theorem headerStep_step_bounds {st : DecSt} {buf : List Char} {ae : Bool}
    {adv : Nat} {st' : DecSt} (h : headerStep st buf ae = .step adv st') :
    1 ≤ adv ∧ adv ≤ buf.length := by
  unfold headerStep at h
  split at h
  · split at h
    · split at h <;> cases h
    · cases h
  next hd tail =>
  split at h
  next hskip =>
    injection h with hadv
    rw [Bool.and_eq_true] at hskip
    have := begS_length hskip.2
    rw [tokenEOM_length] at this
    omega
  split at h
  · split at h <;> cases h
  split at h
  · split at h <;> cases h
  · cases h
  next hph =>
    injection h with hadv
    have := parseHeader_eoc_bounds hph
    omega
  next n0 adv0 hph =>
    injection h with hadv hst
    subst hadv
    exact parseHeader_chunk_bounds hph

theorem fsmStep_step_bounds {st : DecSt} {buf : List Char} {ae : Bool}
    {adv : Nat} {st' : DecSt} (h : fsmStep st buf ae = .step adv st') :
    1 ≤ adv ∧ adv ≤ buf.length := by
  unfold fsmStep at h
  split at h
  · exact eomStep_step_bounds h
  · split at h
    · exact bodyStep_step_bounds h
    · exact headerStep_step_bounds h

/-! ### The drain loop and its unfolding equation -/

theorem drainF_congr : ∀ (f g : Nat) (st : DecSt) (buf : List Char) (ae : Bool),
    buf.length < f → buf.length < g → drainF f st buf ae = drainF g st buf ae := by
  intro f
  induction f with
  | zero =>
    intro g st buf ae hf
    omega
  | succ f ih =>
    intro g st buf ae hf hg
    cases g with
    | zero => omega
    | succ g =>
      simp only [drainF]
      cases hstep : fsmStep st buf ae with
      | more => rfl
      | done o => rfl
      | step adv st' =>
        obtain ⟨h1, h2⟩ := fsmStep_step_bounds hstep
        apply ih
        · rw [List.length_drop]; omega
        · rw [List.length_drop]; omega

theorem Drain_eq (st : DecSt) (buf : List Char) (ae : Bool) :
    Drain st buf ae = (match fsmStep st buf ae with
      | .more => .more st buf
      | .done o => .done o
      | .step adv st' => Drain st' (buf.drop adv) ae) := by
  rw [Drain]
  simp only [drainF]
  cases hstep : fsmStep st buf ae with
  | more => rfl
  | done o => rfl
  | step adv st' =>
    obtain ⟨h1, h2⟩ := fsmStep_step_bounds hstep
    show drainF buf.length st' (buf.drop adv) ae = Drain st' (buf.drop adv) ae
    rw [Drain]
    apply drainF_congr
    · rw [List.length_drop]; omega
    · rw [List.length_drop]; omega

theorem Drain_of_more {st : DecSt} {buf : List Char} {ae : Bool}
    (h : fsmStep st buf ae = .more) : Drain st buf ae = .more st buf := by
  rw [Drain_eq, h]

theorem Drain_of_done {st : DecSt} {buf : List Char} {ae : Bool} {o : Outcome}
    (h : fsmStep st buf ae = .done o) : Drain st buf ae = .done o := by
  rw [Drain_eq, h]

theorem Drain_of_step {st : DecSt} {buf : List Char} {ae : Bool} {adv : Nat}
    {st' : DecSt} (h : fsmStep st buf ae = .step adv st') :
    Drain st buf ae = Drain st' (buf.drop adv) ae := by
  rw [Drain_eq, h]

/-! ### Helper facts about the state-updating functions -/

theorem pushTok_pushTok (st : DecSt) (a b : List Char) :
    pushTok (pushTok st a) b = pushTok st (a ++ b) := by
  have hemp : (!(a ++ b).isEmpty) = (!a.isEmpty || !b.isEmpty) := by
    cases a <;> simp [List.isEmpty]
  simp only [pushTok, List.append_assoc, hemp, Bool.or_assoc]

theorem pushTok_mode (st : DecSt) (a : List Char) : (pushTok st a).mode = st.mode := rfl

theorem pushTok_msgs (st : DecSt) (a : List Char) : (pushTok st a).msgs = st.msgs := rfl

theorem flushMsg_mode (st : DecSt) (a : List Char) : (flushMsg st a).mode = st.mode := rfl

theorem fsmStep_eom {st : DecSt} {buf : List Char} {ae : Bool} (h : st.mode = .eom) :
    fsmStep st buf ae = eomStep st buf ae := by
  unfold fsmStep
  rw [h]

theorem fsmStep_body {st : DecSt} {buf : List Char} {ae : Bool} {n : Nat}
    (h : st.mode = .chunked) (hp : st.phase = .body n) :
    fsmStep st buf ae = bodyStep st n buf ae := by
  unfold fsmStep
  rw [h, hp]

theorem fsmStep_header {st : DecSt} {buf : List Char} {ae : Bool}
    (h : st.mode = .chunked) (hp : st.phase = .header) :
    fsmStep st buf ae = headerStep st buf ae := by
  unfold fsmStep
  rw [h, hp]

theorem eomStep_some {st : DecSt} {buf : List Char} {ae : Bool} {k : Nat}
    (h : findDelim buf = some k) :
    eomStep st buf ae = .step (k + 6) (flushMsg st (buf.take k)) := by
  unfold eomStep
  rw [h]

theorem eomStep_none_more {st : DecSt} {buf : List Char} (h : findDelim buf = none)
    (hle : buf.length ≤ ovl buf) : eomStep st buf false = .more := by
  unfold eomStep
  rw [h]
  simp [hle]

theorem eomStep_none_emit {st : DecSt} {buf : List Char} (h : findDelim buf = none)
    (hlt : ovl buf < buf.length) :
    eomStep st buf false =
      .step (buf.length - ovl buf) (pushTok st (buf.take (buf.length - ovl buf))) := by
  unfold eomStep
  rw [h]
  simp [Nat.not_le.2 hlt]

theorem fsmStep_nil_false (st : DecSt) : fsmStep st [] false = .more := by
  obtain ⟨mode, phase, skip, mid, cur, msgs⟩ := st
  cases mode with
  | eom => rfl
  | chunked =>
    cases phase with
    | header => rfl
    | body n =>
      show bodyStep _ n [] false = .more
      unfold bodyStep
      by_cases hn : n = 0
      · rw [if_pos hn]
      · rw [if_neg hn]
        rfl

theorem fsmStep_take_tokenEOM_more {st : DecSt} (h : st.mode = .eom) {o : Nat}
    (ho : o ≤ 5) : fsmStep st (tokenEOM.take o) false = .more := by
  rw [fsmStep_eom h]
  apply eomStep_none_more (findDelim_take_tokenEOM ho)
  rw [length_take_tokenEOM (by omega), ovl_take_tokenEOM ho]

/-! ### Read-boundary stability of the chunked-mode header parser -/

theorem takeWhile_append_of_stop {p : Char → Bool} {l : List Char} (v : List Char)
    (h : l.dropWhile p ≠ []) :
    (l ++ v).takeWhile p = l.takeWhile p ∧ (l ++ v).dropWhile p = l.dropWhile p ++ v := by
  induction l with
  | nil => simp [List.dropWhile] at h
  | cons a as ih =>
    by_cases hp : p a
    · rw [List.dropWhile_cons, if_pos hp] at h
      obtain ⟨h1, h2⟩ := ih h
      constructor
      · rw [List.cons_append, List.takeWhile_cons, List.takeWhile_cons, if_pos hp, if_pos hp, h1]
      · rw [List.cons_append, List.dropWhile_cons, List.dropWhile_cons, if_pos hp, if_pos hp, h2]
    · constructor
      · rw [List.cons_append, List.takeWhile_cons, List.takeWhile_cons, if_neg hp, if_neg hp]
      · rw [List.cons_append, List.dropWhile_cons, List.dropWhile_cons, if_neg hp, if_neg hp,
          List.cons_append]

theorem parseHeader_stable {u : List Char} (v : List Char) (h : parseHeader u ≠ .more) :
    parseHeader (u ++ v) = parseHeader u := by
  rcases u with _ | ⟨c, rest⟩
  · exact absurd rfl h
  by_cases hc : c = '\n'
  case neg => simp [parseHeader, hc]
  subst hc
  rcases rest with _ | ⟨c2, rest2⟩
  · exact absurd rfl h
  by_cases hc2 : c2 = '#'
  case neg => simp [parseHeader, hc2]
  subst hc2
  rcases rest2 with _ | ⟨c3, rest3⟩
  · exact absurd rfl h
  by_cases hc3 : c3 = '#'
  · subst hc3
    rcases rest3 with _ | ⟨c4, rest4⟩
    · exact absurd rfl h
    simp [parseHeader]
  by_cases hdig : c3.isDigit
  case neg => simp [parseHeader, hc3, hdig]
  by_cases hdw : rest3.dropWhile (fun ch => ch.isDigit) = []
  · exfalso
    apply h
    simp [parseHeader, hc3, hdig, hdw]
  · rcases hdwe : rest3.dropWhile (fun ch => ch.isDigit) with _ | ⟨c5, tail⟩
    · exact absurd hdwe hdw
    obtain ⟨htw, hdw2⟩ := takeWhile_append_of_stop (p := fun ch => ch.isDigit) v hdw
    rw [hdwe] at hdw2
    simp [parseHeader, hc3, hdig, htw, hdw2, hdwe]

theorem begS_cases_tokenEOM {u : List Char} (v : List Char)
    (hfull : begS tokenEOM u = false) (hpro : begS u tokenEOM = false) :
    begS tokenEOM (u ++ v) = false ∧ begS (u ++ v) tokenEOM = false :=
  begS_mutual_false v hfull hpro

theorem headerStep_stable {st : DecSt} {c : Char} {rest : List Char} (v : List Char)
    (h : headerStep st (c :: rest) false ≠ .more) :
    headerStep st ((c :: rest) ++ v) false = headerStep st (c :: rest) false := by
  rw [List.cons_append]
  by_cases hskip : st.skip = true
  · by_cases hfull : begS tokenEOM (c :: rest) = true
    · have hfull2 : begS tokenEOM (c :: (rest ++ v)) = true := by
        have := begS_append_right v hfull
        rwa [List.cons_append] at this
      simp only [headerStep, hskip, hfull, hfull2, Bool.true_and, if_true]
    · by_cases hpro : begS (c :: rest) tokenEOM = true
      · exfalso
        apply h
        simp only [headerStep, hskip, hfull, hpro, Bool.true_and, Bool.false_eq_true,
          if_false, if_true]
      · obtain ⟨hf2, hp2⟩ := begS_mutual_false v (eq_false_of_ne_true hfull)
          (eq_false_of_ne_true hpro)
        rw [List.cons_append] at hf2 hp2
        have hph : parseHeader (c :: rest) ≠ .more := by
          intro hm
          apply h
          simp only [headerStep, hskip, eq_false_of_ne_true hfull,
            eq_false_of_ne_true hpro, Bool.true_and, Bool.false_eq_true, if_false, hm]
        have hps := parseHeader_stable v hph
        rw [List.cons_append] at hps
        simp only [headerStep, hskip, eq_false_of_ne_true hfull, eq_false_of_ne_true hpro,
          hf2, hp2, Bool.true_and, Bool.false_eq_true, if_false, hps]
  · have hskip2 : st.skip = false := eq_false_of_ne_true hskip
    have hph : parseHeader (c :: rest) ≠ .more := by
      intro hm
      apply h
      simp only [headerStep, hskip2, Bool.false_and, Bool.false_eq_true, if_false, hm]
    have hps := parseHeader_stable v hph
    rw [List.cons_append] at hps
    simp only [headerStep, hskip2, Bool.false_and, Bool.false_eq_true, if_false, hps]

/-! ### Composition of draining with appended transport bytes -/

/-- dmatch continues a drain result with further transport bytes appended:
a quiescent drain resumes on the retained residual plus the new bytes, a
terminal outcome is unchanged. -/
def dmatch : DrainRes → List Char → DrainRes
  | .more st res, v => Drain st (res ++ v) false
  | .done o, _ => .done o

theorem flushMsg_pushTok (st : DecSt) (a tok : List Char) :
    flushMsg (pushTok st a) tok = flushMsg st (a ++ tok) := by
  simp [flushMsg, pushTok, List.append_assoc]

theorem bodyStep_cons {st : DecSt} {n : Nat} {a : Char} {as : List Char} (hn : n ≠ 0)
    (ae : Bool) :
    bodyStep st n (a :: as) ae = .step (min n (a :: as).length)
      { pushTok st ((a :: as).take (min n (a :: as).length)) with
          phase := if min n (a :: as).length = n then Phase.header
                   else Phase.body (n - min n (a :: as).length) } := by
  unfold bodyStep
  rw [if_neg hn]

theorem drain_append_aux : ∀ (n : Nat) (u : List Char), u.length ≤ n →
    ∀ (st : DecSt) (v : List Char),
    Drain st (u ++ v) false = dmatch (Drain st u false) v := by
  intro n
  induction n with
  | zero =>
    intro u hu st v
    have hu0 : u = [] := List.length_eq_zero.1 (by omega)
    subst hu0
    rw [List.nil_append, Drain_of_more (fsmStep_nil_false st)]
    rfl
  | succ n ih =>
    intro u hu st v
    rcases u with _ | ⟨a, as⟩
    · rw [List.nil_append, Drain_of_more (fsmStep_nil_false st)]
      rfl
    cases hmode : st.mode with
    | eom =>
      cases hF : findDelim (a :: as) with
      | some k =>
        have hk6 := findDelim_some_le hF
        have hFv := findDelim_append_some v hF
        have htake : ((a :: as) ++ v).take k = (a :: as).take k :=
          List.take_append_of_le_length (by omega)
        have hstepL : fsmStep st ((a :: as) ++ v) false =
            .step (k + 6) (flushMsg st ((a :: as).take k)) := by
          rw [fsmStep_eom hmode, eomStep_some hFv, htake]
        have hstepR : fsmStep st (a :: as) false =
            .step (k + 6) (flushMsg st ((a :: as).take k)) := by
          rw [fsmStep_eom hmode, eomStep_some hF]
        have hL : Drain st ((a :: as) ++ v) false =
            Drain (flushMsg st ((a :: as).take k)) ((a :: as).drop (k + 6) ++ v) false := by
          rw [Drain_of_step hstepL, List.drop_append_of_le_length hk6]
        have hR : Drain st (a :: as) false =
            Drain (flushMsg st ((a :: as).take k)) ((a :: as).drop (k + 6)) false :=
          Drain_of_step hstepR
        rw [hL, hR]
        exact ih _ (by rw [List.length_drop]; omega) _ v
      | none =>
        by_cases hle : (a :: as).length ≤ ovl (a :: as)
        · have hR : Drain st (a :: as) false = .more st (a :: as) :=
            Drain_of_more (by rw [fsmStep_eom hmode]; exact eomStep_none_more hF hle)
          rw [hR]
          rfl
        · push_neg at hle
          have ho5 : ovl (a :: as) ≤ 5 := ovl_le_five _
          have hwe : (a :: as).drop ((a :: as).length - ovl (a :: as)) =
              tokenEOM.take (ovl (a :: as)) := drop_ovl _
          have hmode1 :
              (pushTok st ((a :: as).take ((a :: as).length - ovl (a :: as)))).mode = .eom := by
            rw [pushTok_mode]; exact hmode
          have hstepR : fsmStep st (a :: as) false =
              .step ((a :: as).length - ovl (a :: as))
                (pushTok st ((a :: as).take ((a :: as).length - ovl (a :: as)))) := by
            rw [fsmStep_eom hmode]; exact eomStep_none_emit hF hle
          have hR : Drain st (a :: as) false =
              .more (pushTok st ((a :: as).take ((a :: as).length - ovl (a :: as))))
                (tokenEOM.take (ovl (a :: as))) := by
            rw [Drain_of_step hstepR, hwe,
              Drain_of_more (fsmStep_take_tokenEOM_more hmode1 ho5)]
          rw [hR]
          simp only [dmatch]
          have hlene : ((a :: as).take ((a :: as).length - ovl (a :: as))).length =
              (a :: as).length - ovl (a :: as) := by
            rw [List.length_take]; omega
          have hsplit : (a :: as).take ((a :: as).length - ovl (a :: as)) ++
              tokenEOM.take (ovl (a :: as)) = a :: as := by
            rw [← hwe]; exact List.take_append_drop _ _
          have hEU : (a :: as).take ((a :: as).length - ovl (a :: as)) ++
              (tokenEOM.take (ovl (a :: as)) ++ v) = (a :: as) ++ v := by
            rw [← List.append_assoc, hsplit]
          have hpre : ∀ j, j < ((a :: as).take ((a :: as).length - ovl (a :: as))).length →
              begS tokenEOM (((a :: as).take ((a :: as).length - ovl (a :: as)) ++
                (tokenEOM.take (ovl (a :: as)) ++ v)).drop j) = false := by
            intro j hj
            rw [hlene] at hj
            rw [hEU]
            apply eq_false_of_ne_true
            intro hocc
            have := occ_bound hF hocc
            omega
          have hshift := findDelim_append_shift hpre
          rw [hEU, hlene] at hshift
          have hWlen : (tokenEOM.take (ovl (a :: as))).length = ovl (a :: as) :=
            length_take_tokenEOM (by omega)
          cases hFWv : findDelim (tokenEOM.take (ovl (a :: as)) ++ v) with
          | some k' =>
            rw [hFWv, Option.map_some'] at hshift
            have htake2 : ((a :: as) ++ v).take (k' + ((a :: as).length - ovl (a :: as))) =
                (a :: as).take ((a :: as).length - ovl (a :: as)) ++
                  (tokenEOM.take (ovl (a :: as)) ++ v).take k' := by
              rw [← hEU,
                show k' + ((a :: as).length - ovl (a :: as)) =
                  ((a :: as).take ((a :: as).length - ovl (a :: as))).length + k' from by
                  rw [hlene]; omega,
                List.take_append]
            have hdrop2 : ((a :: as) ++ v).drop (k' + ((a :: as).length - ovl (a :: as)) + 6) =
                (tokenEOM.take (ovl (a :: as)) ++ v).drop (k' + 6) := by
              rw [← hEU,
                show k' + ((a :: as).length - ovl (a :: as)) + 6 =
                  ((a :: as).take ((a :: as).length - ovl (a :: as))).length + (k' + 6) from by
                  rw [hlene]; omega,
                List.drop_append]
            have hstepL2 : fsmStep st ((a :: as) ++ v) false =
                .step (k' + ((a :: as).length - ovl (a :: as)) + 6)
                  (flushMsg st (((a :: as) ++ v).take
                    (k' + ((a :: as).length - ovl (a :: as))))) := by
              rw [fsmStep_eom hmode]; exact eomStep_some hshift
            have hstepR2 : fsmStep
                (pushTok st ((a :: as).take ((a :: as).length - ovl (a :: as))))
                (tokenEOM.take (ovl (a :: as)) ++ v) false =
                .step (k' + 6)
                  (flushMsg (pushTok st ((a :: as).take ((a :: as).length - ovl (a :: as))))
                    ((tokenEOM.take (ovl (a :: as)) ++ v).take k')) := by
              rw [fsmStep_eom hmode1]; exact eomStep_some hFWv
            have hL2 : Drain st ((a :: as) ++ v) false =
                Drain (flushMsg st (((a :: as) ++ v).take
                    (k' + ((a :: as).length - ovl (a :: as)))))
                  (((a :: as) ++ v).drop (k' + ((a :: as).length - ovl (a :: as)) + 6)) false :=
              Drain_of_step hstepL2
            have hR2 : Drain (pushTok st ((a :: as).take ((a :: as).length - ovl (a :: as))))
                (tokenEOM.take (ovl (a :: as)) ++ v) false =
                Drain (flushMsg (pushTok st ((a :: as).take ((a :: as).length - ovl (a :: as))))
                    ((tokenEOM.take (ovl (a :: as)) ++ v).take k'))
                  ((tokenEOM.take (ovl (a :: as)) ++ v).drop (k' + 6)) false :=
              Drain_of_step hstepR2
            rw [hL2, hR2, htake2, hdrop2, flushMsg_pushTok]
          | none =>
            rw [hFWv, Option.map_none'] at hshift
            have hoL : ovl (tokenEOM.take (ovl (a :: as)) ++ v) ≤ ovl (a :: as) + v.length := by
              have h1 := ovl_le_length (tokenEOM.take (ovl (a :: as)) ++ v)
              rw [List.length_append, hWlen] at h1
              exact h1
            have hoveq : ovl ((a :: as) ++ v) = ovl (tokenEOM.take (ovl (a :: as)) ++ v) := by
              apply le_antisymm
              · by_cases hc : ovl ((a :: as) ++ v) ≤ (tokenEOM.take (ovl (a :: as)) ++ v).length
                · have hd : dpsAt (ovl ((a :: as) ++ v))
                      ((a :: as).take ((a :: as).length - ovl (a :: as)) ++
                        (tokenEOM.take (ovl (a :: as)) ++ v)) = true := by
                    rw [hEU]
                    exact dpsAt_ovl _
                  exact ovl_ge ((dpsAt_append_within hc).1 hd)
                · exfalso
                  have hd := dpsAt_ovl ((a :: as) ++ v)
                  push_neg at hc
                  rw [List.length_append, hWlen] at hc
                  have hvle : v.length ≤ ovl ((a :: as) ++ v) := by omega
                  have h2 := ovl_ge (dpsAt_append_long hd hvle)
                  omega
              · have hd := dpsAt_ovl (tokenEOM.take (ovl (a :: as)) ++ v)
                have hd2 := (dpsAt_append_within
                  (u := (a :: as).take ((a :: as).length - ovl (a :: as)))
                  (ovl_le_length _)).2 hd
                rw [hEU] at hd2
                exact ovl_ge hd2
            have hlt2 : ovl ((a :: as) ++ v) < ((a :: as) ++ v).length := by
              rw [List.length_append, hoveq]
              omega
            have hwuv := drop_ovl ((a :: as) ++ v)
            have hmode3 : (pushTok st (((a :: as) ++ v).take
                (((a :: as) ++ v).length - ovl ((a :: as) ++ v)))).mode = .eom := by
              rw [pushTok_mode]; exact hmode
            have hstepL3 : fsmStep st ((a :: as) ++ v) false =
                .step (((a :: as) ++ v).length - ovl ((a :: as) ++ v))
                  (pushTok st (((a :: as) ++ v).take
                    (((a :: as) ++ v).length - ovl ((a :: as) ++ v)))) := by
              rw [fsmStep_eom hmode]; exact eomStep_none_emit hshift hlt2
            have hL3 : Drain st ((a :: as) ++ v) false =
                .more (pushTok st (((a :: as) ++ v).take
                    (((a :: as) ++ v).length - ovl ((a :: as) ++ v))))
                  (tokenEOM.take (ovl ((a :: as) ++ v))) := by
              rw [Drain_of_step hstepL3, hwuv,
                Drain_of_more (fsmStep_take_tokenEOM_more hmode3 (ovl_le_five _))]
            rw [hL3]
            by_cases hle3 : (tokenEOM.take (ovl (a :: as)) ++ v).length ≤
                ovl (tokenEOM.take (ovl (a :: as)) ++ v)
            · have hoeq2 : ovl (tokenEOM.take (ovl (a :: as)) ++ v) =
                  ovl (a :: as) + v.length := by
                have h1 := hle3
                rw [List.length_append, hWlen] at h1
                omega
              have hWveq : tokenEOM.take (ovl (a :: as)) ++ v =
                  tokenEOM.take (ovl (tokenEOM.take (ovl (a :: as)) ++ v)) := by
                have h1 := drop_ovl (tokenEOM.take (ovl (a :: as)) ++ v)
                rw [show (tokenEOM.take (ovl (a :: as)) ++ v).length -
                    ovl (tokenEOM.take (ovl (a :: as)) ++ v) = 0 from by
                    rw [List.length_append, hWlen, hoeq2]; omega,
                  List.drop_zero] at h1
                exact h1
              have hR3 : Drain (pushTok st ((a :: as).take ((a :: as).length - ovl (a :: as))))
                  (tokenEOM.take (ovl (a :: as)) ++ v) false =
                  .more (pushTok st ((a :: as).take ((a :: as).length - ovl (a :: as))))
                    (tokenEOM.take (ovl (a :: as)) ++ v) :=
                Drain_of_more (by rw [fsmStep_eom hmode1]; exact eomStep_none_more hFWv hle3)
              rw [hR3]
              have htake3 : ((a :: as) ++ v).take
                  (((a :: as) ++ v).length - ovl ((a :: as) ++ v)) =
                  (a :: as).take ((a :: as).length - ovl (a :: as)) := by
                rw [List.length_append, hoveq, hoeq2,
                  show (a :: as).length + v.length - (ovl (a :: as) + v.length) =
                    (a :: as).length - ovl (a :: as) from by omega,
                  List.take_append_of_le_length (by omega)]
              rw [htake3, hoveq, ← hWveq]
            · push_neg at hle3
              have hstepR4 : fsmStep
                  (pushTok st ((a :: as).take ((a :: as).length - ovl (a :: as))))
                  (tokenEOM.take (ovl (a :: as)) ++ v) false =
                  .step ((tokenEOM.take (ovl (a :: as)) ++ v).length -
                      ovl (tokenEOM.take (ovl (a :: as)) ++ v))
                    (pushTok (pushTok st ((a :: as).take ((a :: as).length - ovl (a :: as))))
                      ((tokenEOM.take (ovl (a :: as)) ++ v).take
                        ((tokenEOM.take (ovl (a :: as)) ++ v).length -
                          ovl (tokenEOM.take (ovl (a :: as)) ++ v)))) := by
                rw [fsmStep_eom hmode1]; exact eomStep_none_emit hFWv hle3
              have hmode4 : (pushTok
                  (pushTok st ((a :: as).take ((a :: as).length - ovl (a :: as))))
                  ((tokenEOM.take (ovl (a :: as)) ++ v).take
                    ((tokenEOM.take (ovl (a :: as)) ++ v).length -
                      ovl (tokenEOM.take (ovl (a :: as)) ++ v)))).mode = .eom := by
                rw [pushTok_mode, pushTok_mode]; exact hmode
              have hR4 : Drain (pushTok st ((a :: as).take ((a :: as).length - ovl (a :: as))))
                  (tokenEOM.take (ovl (a :: as)) ++ v) false =
                  .more (pushTok
                      (pushTok st ((a :: as).take ((a :: as).length - ovl (a :: as))))
                      ((tokenEOM.take (ovl (a :: as)) ++ v).take
                        ((tokenEOM.take (ovl (a :: as)) ++ v).length -
                          ovl (tokenEOM.take (ovl (a :: as)) ++ v))))
                    (tokenEOM.take (ovl (tokenEOM.take (ovl (a :: as)) ++ v))) := by
                rw [Drain_of_step hstepR4, drop_ovl (tokenEOM.take (ovl (a :: as)) ++ v),
                  Drain_of_more (fsmStep_take_tokenEOM_more hmode4 (ovl_le_five _))]
              rw [hR4, pushTok_pushTok]
              have harith : ((a :: as) ++ v).length - ovl ((a :: as) ++ v) =
                  ((a :: as).take ((a :: as).length - ovl (a :: as))).length +
                    ((tokenEOM.take (ovl (a :: as)) ++ v).length -
                      ovl (tokenEOM.take (ovl (a :: as)) ++ v)) := by
                have h9 := ovl_le_length (tokenEOM.take (ovl (a :: as)) ++ v)
                rw [List.length_append, hWlen] at h9
                rw [hoveq, hlene, List.length_append, List.length_append, hWlen]
                omega
              have htake4 : ((a :: as) ++ v).take
                  (((a :: as) ++ v).length - ovl ((a :: as) ++ v)) =
                  (a :: as).take ((a :: as).length - ovl (a :: as)) ++
                    (tokenEOM.take (ovl (a :: as)) ++ v).take
                      ((tokenEOM.take (ovl (a :: as)) ++ v).length -
                        ovl (tokenEOM.take (ovl (a :: as)) ++ v)) := by
                rw [harith, ← hEU, List.take_append]
              rw [htake4, hoveq]
    | chunked =>
      cases hph : st.phase with
      | header =>
        cases hH : headerStep st (a :: as) false with
        | more =>
          have hR : Drain st (a :: as) false = .more st (a :: as) :=
            Drain_of_more (by rw [fsmStep_header hmode hph]; exact hH)
          rw [hR]
          rfl
        | done o =>
          have hH2 : headerStep st ((a :: as) ++ v) false = .done o := by
            rw [headerStep_stable v (by rw [hH]; intro hc; cases hc), hH]
          have hL : Drain st ((a :: as) ++ v) false = .done o :=
            Drain_of_done (by rw [fsmStep_header hmode hph]; exact hH2)
          have hR : Drain st (a :: as) false = .done o :=
            Drain_of_done (by rw [fsmStep_header hmode hph]; exact hH)
          rw [hL, hR]
          rfl
        | step adv st' =>
          have hH2 : headerStep st ((a :: as) ++ v) false = .step adv st' := by
            rw [headerStep_stable v (by rw [hH]; intro hc; cases hc), hH]
          obtain ⟨hadv1, hadv2⟩ := headerStep_step_bounds hH
          have hL : Drain st ((a :: as) ++ v) false =
              Drain st' ((a :: as).drop adv ++ v) false := by
            rw [Drain_of_step (show fsmStep st ((a :: as) ++ v) false = .step adv st' from by
                rw [fsmStep_header hmode hph]; exact hH2),
              List.drop_append_of_le_length hadv2]
          have hR : Drain st (a :: as) false = Drain st' ((a :: as).drop adv) false :=
            Drain_of_step (by rw [fsmStep_header hmode hph]; exact hH)
          rw [hL, hR]
          exact ih _ (by rw [List.length_drop]; omega) st' v
      | body nn =>
        by_cases hn0 : nn = 0
        · have hR : Drain st (a :: as) false = .more st (a :: as) :=
            Drain_of_more (by
              rw [fsmStep_body hmode hph]
              unfold bodyStep
              rw [if_pos hn0])
          rw [hR]
          rfl
        · by_cases hnu : nn ≤ (a :: as).length
          · have hmin1 : min nn (a :: as).length = nn := min_eq_left hnu
            have hstepL : fsmStep st ((a :: as) ++ v) false = .step nn
                { pushTok st ((a :: as).take nn) with phase := Phase.header } := by
              rcases v with _ | ⟨b, bs⟩
              · rw [List.append_nil, fsmStep_body hmode hph, bodyStep_cons hn0, hmin1,
                  if_pos rfl]
              · rw [fsmStep_body hmode hph, List.cons_append, bodyStep_cons hn0,
                  ← List.cons_append,
                  show min nn ((a :: as) ++ b :: bs).length = nn from
                    min_eq_left (by rw [List.length_append]; omega),
                  if_pos rfl, List.take_append_of_le_length hnu]
            have hstepR : fsmStep st (a :: as) false = .step nn
                { pushTok st ((a :: as).take nn) with phase := Phase.header } := by
              rw [fsmStep_body hmode hph, bodyStep_cons hn0, hmin1, if_pos rfl]
            have hL : Drain st ((a :: as) ++ v) false =
                Drain { pushTok st ((a :: as).take nn) with phase := Phase.header }
                  ((a :: as).drop nn ++ v) false := by
              rw [Drain_of_step hstepL, List.drop_append_of_le_length hnu]
            have hR : Drain st (a :: as) false =
                Drain { pushTok st ((a :: as).take nn) with phase := Phase.header }
                  ((a :: as).drop nn) false :=
              Drain_of_step hstepR
            rw [hL, hR]
            exact ih _ (by rw [List.length_drop]; omega) _ v
          · push_neg at hnu
            have hmin1 : min nn (a :: as).length = (a :: as).length :=
              min_eq_right (by omega)
            have hstepR : fsmStep st (a :: as) false = .step (a :: as).length
                { pushTok st (a :: as) with phase := Phase.body (nn - (a :: as).length) } := by
              rw [fsmStep_body hmode hph, bodyStep_cons hn0, hmin1, if_neg (by omega),
                List.take_length]
            have hmid : (pushTok st (a :: as)).mode = Mode.chunked := by
              rw [pushTok_mode]; exact hmode
            have hR : Drain st (a :: as) false =
                .more { pushTok st (a :: as) with phase := Phase.body (nn - (a :: as).length) }
                  [] := by
              rw [Drain_of_step hstepR, List.drop_length, Drain_of_more (fsmStep_nil_false _)]
            rw [hR]
            simp only [dmatch, List.nil_append]
            by_cases hnv : nn ≤ (a :: as).length + v.length
            · rcases v with _ | ⟨b, bs⟩
              · simp only [List.length_nil] at hnv
                omega
              have hstepL : fsmStep st ((a :: as) ++ (b :: bs)) false = .step nn
                  { pushTok st (((a :: as) ++ (b :: bs)).take nn) with
                      phase := Phase.header } := by
                rw [fsmStep_body hmode hph, List.cons_append, bodyStep_cons hn0,
                  ← List.cons_append,
                  show min nn ((a :: as) ++ b :: bs).length = nn from
                    min_eq_left (by rw [List.length_append]; omega),
                  if_pos rfl]
              have hnv' : nn - (a :: as).length ≤ (b :: bs).length := by omega
              have hminR : min (nn - (a :: as).length) (b :: bs).length =
                  nn - (a :: as).length := min_eq_left hnv'
              have hmid2 : ({ pushTok st (a :: as) with
                  phase := Phase.body (nn - (a :: as).length) } : DecSt).mode =
                  Mode.chunked := hmode
              have hstepR2 : fsmStep { pushTok st (a :: as) with
                  phase := Phase.body (nn - (a :: as).length) } (b :: bs) false =
                  .step (nn - (a :: as).length)
                  { pushTok { pushTok st (a :: as) with
                        phase := Phase.body (nn - (a :: as).length) }
                      ((b :: bs).take (nn - (a :: as).length)) with
                      phase := Phase.header } := by
                rw [fsmStep_body hmid2 rfl, bodyStep_cons (by omega), hminR, if_pos rfl]
              have hL : Drain st ((a :: as) ++ (b :: bs)) false =
                  Drain { pushTok st (((a :: as) ++ (b :: bs)).take nn) with
                      phase := Phase.header } (((a :: as) ++ (b :: bs)).drop nn) false :=
                Drain_of_step hstepL
              have hR2 : Drain { pushTok st (a :: as) with
                  phase := Phase.body (nn - (a :: as).length) } (b :: bs) false =
                  Drain { pushTok { pushTok st (a :: as) with
                        phase := Phase.body (nn - (a :: as).length) }
                      ((b :: bs).take (nn - (a :: as).length)) with phase := Phase.header }
                    ((b :: bs).drop (nn - (a :: as).length)) false :=
                Drain_of_step hstepR2
              rw [hL, hR2]
              have hpt : pushTok { pushTok st (a :: as) with
                  phase := Phase.body (nn - (a :: as).length) }
                  ((b :: bs).take (nn - (a :: as).length)) =
                  { pushTok (pushTok st (a :: as)) ((b :: bs).take (nn - (a :: as).length)) with
                      phase := Phase.body (nn - (a :: as).length) } := by
                simp [pushTok]
              have htk : ((a :: as) ++ (b :: bs)).take nn =
                  (a :: as) ++ (b :: bs).take (nn - (a :: as).length) := by
                conv_lhs =>
                  rw [show nn = (a :: as).length + (nn - (a :: as).length) from by omega]
                rw [List.take_append]
              have hdk : ((a :: as) ++ (b :: bs)).drop nn =
                  (b :: bs).drop (nn - (a :: as).length) := by
                conv_lhs =>
                  rw [show nn = (a :: as).length + (nn - (a :: as).length) from by omega]
                rw [List.drop_append]
              rw [hpt, pushTok_pushTok, htk, hdk]
            · push_neg at hnv
              rcases v with _ | ⟨b, bs⟩
              · rw [List.append_nil, hR, Drain_of_more (fsmStep_nil_false _)]
              have hstepL : fsmStep st ((a :: as) ++ (b :: bs)) false =
                  .step ((a :: as) ++ (b :: bs)).length
                  { pushTok st ((a :: as) ++ (b :: bs)) with
                      phase := Phase.body (nn - ((a :: as) ++ (b :: bs)).length) } := by
                rw [fsmStep_body hmode hph, List.cons_append, bodyStep_cons hn0,
                  ← List.cons_append,
                  show min nn ((a :: as) ++ b :: bs).length = ((a :: as) ++ b :: bs).length from
                    min_eq_right (by rw [List.length_append] at *; omega),
                  if_neg (by rw [List.length_append] at *; omega), List.take_length]
              have hL : Drain st ((a :: as) ++ (b :: bs)) false =
                  .more { pushTok st ((a :: as) ++ (b :: bs)) with
                      phase := Phase.body (nn - ((a :: as) ++ (b :: bs)).length) } [] := by
                rw [Drain_of_step hstepL, List.drop_length,
                  Drain_of_more (fsmStep_nil_false _)]
              have hnv2 : (b :: bs).length < nn - (a :: as).length := by
                omega
              have hminR : min (nn - (a :: as).length) (b :: bs).length = (b :: bs).length :=
                min_eq_right (by omega)
              have hmid2 : ({ pushTok st (a :: as) with
                  phase := Phase.body (nn - (a :: as).length) } : DecSt).mode =
                  Mode.chunked := hmode
              have hstepR2 : fsmStep { pushTok st (a :: as) with
                  phase := Phase.body (nn - (a :: as).length) } (b :: bs) false =
                  .step (b :: bs).length
                  { pushTok { pushTok st (a :: as) with
                        phase := Phase.body (nn - (a :: as).length) } (b :: bs) with
                      phase := Phase.body (nn - (a :: as).length - (b :: bs).length) } := by
                rw [fsmStep_body hmid2 rfl, bodyStep_cons (by omega), hminR,
                  if_neg (by omega), List.take_length]
              have hR2 : Drain { pushTok st (a :: as) with
                  phase := Phase.body (nn - (a :: as).length) } (b :: bs) false =
                  .more { pushTok { pushTok st (a :: as) with
                        phase := Phase.body (nn - (a :: as).length) } (b :: bs) with
                      phase := Phase.body (nn - (a :: as).length - (b :: bs).length) } [] := by
                rw [Drain_of_step hstepR2, List.drop_length,
                  Drain_of_more (fsmStep_nil_false _)]
              rw [hL, hR2]
              have hpt : pushTok { pushTok st (a :: as) with
                  phase := Phase.body (nn - (a :: as).length) } (b :: bs) =
                  { pushTok (pushTok st (a :: as)) (b :: bs) with
                      phase := Phase.body (nn - (a :: as).length) } := by
                simp [pushTok]
              rw [hpt, pushTok_pushTok,
                show nn - (a :: as).length - (b :: bs).length =
                  nn - ((a :: as) ++ (b :: bs)).length from by
                  rw [List.length_append]; omega]

theorem drain_append (st : DecSt) (u v : List Char) :
    Drain st (u ++ v) false = dmatch (Drain st u false) v :=
  drain_append_aux u.length u le_rfl st v

/-! ### Composition of draining with the end-of-stream invocation -/

/-- fmatch finishes a drain result at end of input: a quiescent drain runs
once more with atEnd set, a terminal outcome is unchanged. -/
def fmatch : DrainRes → DrainRes
  | .more st res => Drain st res true
  | .done o => .done o

theorem eomStep_none_true_ne {st : DecSt} {buf : List Char} (h : findDelim buf = none)
    (hne : buf ≠ []) : eomStep st buf true = .done (.uEof st.msgs) := by
  rcases buf with _ | ⟨c, cs⟩
  · exact absurd rfl hne
  unfold eomStep
  rw [h]
  rfl

theorem eomStep_true_done {st : DecSt} {buf : List Char} (h : findDelim buf = none)
    (hmid : buf = [] → st.midMsg = true) : eomStep st buf true = .done (.uEof st.msgs) := by
  rcases buf with _ | ⟨c, cs⟩
  · unfold eomStep
    rw [show findDelim ([] : List Char) = none from rfl, hmid rfl]
    rfl
  · exact eomStep_none_true_ne h (by simp)

theorem headerStep_true_of_false {st : DecSt} {c : Char} {rest : List Char}
    (h : headerStep st (c :: rest) false ≠ .more) :
    headerStep st (c :: rest) true = headerStep st (c :: rest) false := by
  by_cases hskip : st.skip = true
  · by_cases hfull : begS tokenEOM (c :: rest) = true
    · simp only [headerStep, hskip, hfull, Bool.true_and, if_true]
    · by_cases hpro : begS (c :: rest) tokenEOM = true
      · exfalso
        apply h
        simp only [headerStep, hskip, hfull, hpro, Bool.true_and, Bool.false_eq_true,
          if_false, if_true]
      · cases hph : parseHeader (c :: rest) with
        | more =>
          exfalso
          apply h
          simp only [headerStep, hskip, eq_false_of_ne_true hfull, eq_false_of_ne_true hpro,
            Bool.true_and, Bool.false_eq_true, if_false, hph]
        | bad r =>
          simp only [headerStep, hskip, eq_false_of_ne_true hfull, eq_false_of_ne_true hpro,
            Bool.true_and, Bool.false_eq_true, if_false, hph]
        | eoc =>
          simp only [headerStep, hskip, eq_false_of_ne_true hfull, eq_false_of_ne_true hpro,
            Bool.true_and, Bool.false_eq_true, if_false, hph]
        | chunk nn adv =>
          simp only [headerStep, hskip, eq_false_of_ne_true hfull, eq_false_of_ne_true hpro,
            Bool.true_and, Bool.false_eq_true, if_false, hph]
  · have hskip2 : st.skip = false := eq_false_of_ne_true hskip
    cases hph : parseHeader (c :: rest) with
    | more =>
      exfalso
      apply h
      simp only [headerStep, hskip2, Bool.false_and, Bool.false_eq_true, if_false, hph]
    | bad r =>
      simp only [headerStep, hskip2, Bool.false_and, Bool.false_eq_true, if_false, hph]
    | eoc =>
      simp only [headerStep, hskip2, Bool.false_and, Bool.false_eq_true, if_false, hph]
    | chunk nn adv =>
      simp only [headerStep, hskip2, Bool.false_and, Bool.false_eq_true, if_false, hph]

theorem drain_finish_aux : ∀ (n : Nat) (u : List Char), u.length ≤ n → ∀ (st : DecSt),
    Drain st u true = fmatch (Drain st u false) := by
  intro n
  induction n with
  | zero =>
    intro u hu st
    have hu0 : u = [] := List.length_eq_zero.1 (by omega)
    subst hu0
    rw [Drain_of_more (fsmStep_nil_false st)]
    rfl
  | succ n ih =>
    intro u hu st
    rcases u with _ | ⟨a, as⟩
    · rw [Drain_of_more (fsmStep_nil_false st)]
      rfl
    cases hmode : st.mode with
    | eom =>
      cases hF : findDelim (a :: as) with
      | some k =>
        have hk6 := findDelim_some_le hF
        have hL : Drain st (a :: as) true =
            Drain (flushMsg st ((a :: as).take k)) ((a :: as).drop (k + 6)) true :=
          Drain_of_step (by rw [fsmStep_eom hmode]; exact eomStep_some hF)
        have hR : Drain st (a :: as) false =
            Drain (flushMsg st ((a :: as).take k)) ((a :: as).drop (k + 6)) false :=
          Drain_of_step (by rw [fsmStep_eom hmode]; exact eomStep_some hF)
        rw [hL, hR]
        exact ih _ (by rw [List.length_drop]; omega) _
      | none =>
        by_cases hle : (a :: as).length ≤ ovl (a :: as)
        · have hR : Drain st (a :: as) false = .more st (a :: as) :=
            Drain_of_more (by rw [fsmStep_eom hmode]; exact eomStep_none_more hF hle)
          rw [hR]
          rfl
        · push_neg at hle
          have ho5 : ovl (a :: as) ≤ 5 := ovl_le_five _
          have hwe : (a :: as).drop ((a :: as).length - ovl (a :: as)) =
              tokenEOM.take (ovl (a :: as)) := drop_ovl _
          have hmode1 :
              (pushTok st ((a :: as).take ((a :: as).length - ovl (a :: as)))).mode = .eom := by
            rw [pushTok_mode]; exact hmode
          have hR : Drain st (a :: as) false =
              .more (pushTok st ((a :: as).take ((a :: as).length - ovl (a :: as))))
                (tokenEOM.take (ovl (a :: as))) := by
            rw [Drain_of_step (show fsmStep st (a :: as) false =
                .step ((a :: as).length - ovl (a :: as))
                  (pushTok st ((a :: as).take ((a :: as).length - ovl (a :: as)))) from by
                rw [fsmStep_eom hmode]; exact eomStep_none_emit hF hle), hwe,
              Drain_of_more (fsmStep_take_tokenEOM_more hmode1 ho5)]
          have hene : (a :: as).take ((a :: as).length - ovl (a :: as)) ≠ [] := by
            intro hnil
            rw [List.take_eq_nil_iff] at hnil
            rcases hnil with h1 | h1
            · omega
            · cases h1
          have hmid1 : (pushTok st ((a :: as).take ((a :: as).length - ovl (a :: as)))).midMsg =
              true := by
            simp only [pushTok]
            rw [show ((a :: as).take ((a :: as).length - ovl (a :: as))).isEmpty = false from by
              rcases hq : (a :: as).take ((a :: as).length - ovl (a :: as)) with _ | ⟨x, xs⟩
              · exact absurd hq hene
              · rfl]
            simp
          have hL : Drain st (a :: as) true = .done (.uEof st.msgs) :=
            Drain_of_done (by
              rw [fsmStep_eom hmode]
              exact eomStep_none_true_ne hF (by simp))
          have hfin : Drain (pushTok st ((a :: as).take ((a :: as).length - ovl (a :: as))))
              (tokenEOM.take (ovl (a :: as))) true = .done (.uEof st.msgs) := by
            rw [Drain_of_done (show fsmStep
                (pushTok st ((a :: as).take ((a :: as).length - ovl (a :: as))))
                (tokenEOM.take (ovl (a :: as))) true =
                .done (.uEof (pushTok st
                  ((a :: as).take ((a :: as).length - ovl (a :: as)))).msgs) from by
              rw [fsmStep_eom hmode1]
              exact eomStep_true_done (findDelim_take_tokenEOM ho5) (fun _ => hmid1))]
            rw [pushTok_msgs]
          rw [hL, hR]
          simp only [fmatch]
          rw [hfin]
    | chunked =>
      cases hph : st.phase with
      | header =>
        cases hH : headerStep st (a :: as) false with
        | more =>
          have hR : Drain st (a :: as) false = .more st (a :: as) :=
            Drain_of_more (by rw [fsmStep_header hmode hph]; exact hH)
          rw [hR]
          rfl
        | done o =>
          have hH2 : headerStep st (a :: as) true = .done o := by
            rw [headerStep_true_of_false (by rw [hH]; intro hc; cases hc), hH]
          have hL : Drain st (a :: as) true = .done o :=
            Drain_of_done (by rw [fsmStep_header hmode hph]; exact hH2)
          have hR : Drain st (a :: as) false = .done o :=
            Drain_of_done (by rw [fsmStep_header hmode hph]; exact hH)
          rw [hL, hR]
          rfl
        | step adv st' =>
          have hH2 : headerStep st (a :: as) true = .step adv st' := by
            rw [headerStep_true_of_false (by rw [hH]; intro hc; cases hc), hH]
          obtain ⟨hadv1, hadv2⟩ := headerStep_step_bounds hH
          have hL : Drain st (a :: as) true = Drain st' ((a :: as).drop adv) true :=
            Drain_of_step (by rw [fsmStep_header hmode hph]; exact hH2)
          have hR : Drain st (a :: as) false = Drain st' ((a :: as).drop adv) false :=
            Drain_of_step (by rw [fsmStep_header hmode hph]; exact hH)
          rw [hL, hR]
          exact ih _ (by rw [List.length_drop]; omega) st'
      | body nn =>
        by_cases hn0 : nn = 0
        · have hR : Drain st (a :: as) false = .more st (a :: as) :=
            Drain_of_more (by
              rw [fsmStep_body hmode hph]
              unfold bodyStep
              rw [if_pos hn0])
          rw [hR]
          rfl
        · have hstep : ∀ ae, fsmStep st (a :: as) ae = .step (min nn (a :: as).length)
              { pushTok st ((a :: as).take (min nn (a :: as).length)) with
                  phase := if min nn (a :: as).length = nn then Phase.header
                           else Phase.body (nn - min nn (a :: as).length) } := by
            intro ae
            rw [fsmStep_body hmode hph, bodyStep_cons hn0]
          have hadv1 : 1 ≤ min nn (a :: as).length := by
            simp only [List.length_cons]
            omega
          have hL : Drain st (a :: as) true =
              Drain { pushTok st ((a :: as).take (min nn (a :: as).length)) with
                  phase := if min nn (a :: as).length = nn then Phase.header
                           else Phase.body (nn - min nn (a :: as).length) }
                ((a :: as).drop (min nn (a :: as).length)) true :=
            Drain_of_step (hstep true)
          have hR : Drain st (a :: as) false =
              Drain { pushTok st ((a :: as).take (min nn (a :: as).length)) with
                  phase := if min nn (a :: as).length = nn then Phase.header
                           else Phase.body (nn - min nn (a :: as).length) }
                ((a :: as).drop (min nn (a :: as).length)) false :=
            Drain_of_step (hstep false)
          rw [hL, hR]
          exact ih _ (by rw [List.length_drop]; omega) _

theorem drain_finish (st : DecSt) (u : List Char) :
    Drain st u true = fmatch (Drain st u false) :=
  drain_finish_aux u.length u le_rfl st

/-! ### Read-boundary insensitivity of the scanner loop -/

theorem runReads_join : ∀ (rs : List (List Char)) (st : DecSt) (buf : List Char),
    runReads st buf rs = runReads st buf [rs.flatten] := by
  intro rs
  induction rs with
  | nil =>
    intro st buf
    simp only [runReads, List.flatten_nil, List.append_nil]
    rw [drain_finish st buf]
    cases hD : Drain st buf false with
    | done o => rfl
    | more st' b' =>
      simp only [fmatch, runReads]
  | cons r rs ih =>
    intro st buf
    simp only [runReads, List.flatten_cons]
    rw [show buf ++ (r ++ rs.flatten) = (buf ++ r) ++ rs.flatten from
      (List.append_assoc _ _ _).symm, drain_append st (buf ++ r) rs.flatten]
    cases hD : Drain st (buf ++ r) false with
    | done o => rfl
    | more st' res =>
      simp only [dmatch]
      rw [ih st' res]
      simp only [runReads]

theorem decodeReads_join (st : DecSt) (rs : List (List Char)) :
    decodeReads st rs = decodeReads st [rs.flatten] := by
  unfold decodeReads
  exact runReads_join rs st []

/-! ### Claim C1: the EOM round trip -/

/-- C1 claims the round trip holds for every payload without the six-byte
delimiter, but it fails for the payload "A]]>": it contains no delimiter,
yet its "]]>" tail merges with the appended trailer into an earlier
delimiter occurrence, so decoding the encoded bytes yields the truncated
message "A" and then UnexpectedEof instead of the original payload. -/
theorem c1_counterexample :
    findDelim ('A' :: ']' :: ']' :: '>' :: []) = none ∧
    decodeReads eomInit [encodeEOM ('A' :: ']' :: ']' :: '>' :: [])] =
      .uEof [['A']] ∧
    decodeReads eomInit [encodeEOM ('A' :: ']' :: ']' :: '>' :: [])] ≠
      .ok [('A' :: ']' :: ']' :: '>' :: [])] := by
  refine ⟨by decide, by decide, by decide⟩

/-- C1 amended: for every payload p that contains no occurrence of the
six-byte delimiter and does not end with the three bytes "]]>" (the one
self-overlap of the delimiter, which would otherwise merge with the trailer
into an earlier occurrence), encoding p in EOM mode and then decoding the
produced bytes yields exactly the single message p followed by a clean end
of stream. -/
theorem c1_eom_round_trip (p : List Char) (hp : findDelim p = none)
    (h3 : dpsAt 3 p = false) :
    decodeReads eomInit [encodeEOM p] = .ok [p] := by
  have hmode : eomInit.mode = .eom := rfl
  have hfd := findDelim_encodeEOM hp h3
  have hstep : fsmStep eomInit (p ++ tokenEOM) false =
      .step (p.length + 6) (flushMsg eomInit ((p ++ tokenEOM).take p.length)) := by
    rw [fsmStep_eom hmode]
    exact eomStep_some hfd
  have htk : (p ++ tokenEOM).take p.length = p := by
    rw [List.take_append_of_le_length le_rfl, List.take_length]
  have hdp : (p ++ tokenEOM).drop (p.length + 6) = [] := by
    rw [List.drop_append]
    rfl
  have hflush : flushMsg eomInit p =
      { mode := .eom, phase := .header, skip := false, midMsg := false, cur := [],
        msgs := [p] } := by
    simp [flushMsg, eomInit]
  show runReads eomInit [] [encodeEOM p] = .ok [p]
  simp only [runReads, List.nil_append, encodeEOM]
  rw [Drain_of_step hstep, htk, hdp, hflush, Drain_of_more (fsmStep_nil_false _)]
  simp only [runReads]
  have hdone :
      fsmStep
        { mode := Mode.eom, phase := Phase.header, skip := false, midMsg := false,
          cur := ([] : List Char), msgs := [p] }
        [] true = .done (.ok [p]) := rfl
  rw [Drain_of_done hdone]

/-- Witness for the amended C1 round trip at the payload "hello". -/
theorem c1_eom_round_trip_witness :
    findDelim ('h' :: 'e' :: 'l' :: 'l' :: 'o' :: []) = none ∧
    dpsAt 3 ('h' :: 'e' :: 'l' :: 'l' :: 'o' :: []) = false ∧
    decodeReads eomInit [encodeEOM ('h' :: 'e' :: 'l' :: 'l' :: 'o' :: [])] =
      .ok [('h' :: 'e' :: 'l' :: 'l' :: 'o' :: [])] :=
  ⟨by decide, by decide, c1_eom_round_trip _ (by decide) (by decide)⟩

/-! ### Claim C2: read-boundary insensitivity -/

/-- C2: for every decoder state (in particular the initial EOM state and the
chunked state entered by `setChunked`) and every way of splitting the
transport byte stream into successive reads, the decoder produces exactly
the same outcome — the same message payloads in the same order, and the same
terminal condition — as when the whole stream is delivered in a single read;
concretely, the `SplitChunkMetadata` split of a chunked frame across the
reads "\n#6", "\n<rpc/>\n#", "#\n" still yields the single message "<rpc/>",
and the `SmallWrites` split of an EOM frame still yields "ABCDEFG". -/
theorem c2_read_boundary_insensitive :
    (∀ (st : DecSt) (rs : List (List Char)), decodeReads st rs = decodeReads st [rs.flatten]) ∧
    decodeReads (setChunked eomInit)
      ["\n#6".toList, "\n<rpc/>\n#".toList, "#\n".toList] = .ok ["<rpc/>".toList] ∧
    decodeReads eomInit
      ["AB".toList, "CD".toList, "EF".toList, "G".toList, "]]>]]>".toList] =
      .ok ["ABCDEFG".toList] :=
  ⟨decodeReads_join, by decide, by decide⟩

/-! ### Claim C3: the EOM no-delimiter retention rule -/

/-- C3 claims the state machine always keeps exactly the last 5 bytes when no
delimiter is found, but on the buffer "ABCDEFG" (no delimiter, stream not at
end) the machine consumes and emits all 7 bytes — as the repository's own
decoder tests `MessageSplitOverBuffer` and `SwitchWithDanglingEOM` require —
rather than emitting only the first 2 and keeping "CDEFG". -/
theorem c3_counterexample :
    findDelim "ABCDEFG".toList = none ∧
    fsmStep eomInit "ABCDEFG".toList false =
      .step 7 (pushTok eomInit "ABCDEFG".toList) ∧
    7 ≠ "ABCDEFG".toList.length - 5 := by
  refine ⟨by decide, by decide, by decide⟩

/-- C3 amended: in EOM mode, when no delimiter is found in the buffer and the
stream is not at end, the state machine keeps exactly the longest suffix of
the buffer that is a prefix of the delimiter — which is at most 5 bytes, so
a delimiter split across two reads is never lost — emits everything before
that suffix, and advances by the emitted length. -/
theorem c3_eom_retention (st : DecSt) (buf : List Char) (hmode : st.mode = .eom)
    (hF : findDelim buf = none) (hlt : ovl buf < buf.length) :
    fsmStep st buf false = .step (buf.length - ovl buf)
        (pushTok st (buf.take (buf.length - ovl buf))) ∧
    buf.drop (buf.length - ovl buf) = tokenEOM.take (ovl buf) ∧
    ovl buf ≤ 5 ∧
    (∀ j, j ≤ 5 → dpsAt j buf = true → j ≤ ovl buf) := by
  refine ⟨?_, drop_ovl buf, ovl_le_five buf, fun j _ hj => ovl_ge hj⟩
  rw [fsmStep_eom hmode]
  exact eomStep_none_emit hF hlt

/-- Witness for the amended C3 retention rule at the buffer "XY]]", whose
longest delimiter-prefix suffix is "]]". -/
theorem c3_eom_retention_witness :
    findDelim "XY]]".toList = none ∧ ovl "XY]]".toList < "XY]]".toList.length ∧
    (fsmStep eomInit "XY]]".toList false = .step ("XY]]".toList.length - ovl "XY]]".toList)
        (pushTok eomInit ("XY]]".toList.take ("XY]]".toList.length - ovl "XY]]".toList))) ∧
      "XY]]".toList.drop ("XY]]".toList.length - ovl "XY]]".toList) =
        tokenEOM.take (ovl "XY]]".toList) ∧
      ovl "XY]]".toList ≤ 5 ∧
      (∀ j, j ≤ 5 → dpsAt j "XY]]".toList = true → j ≤ ovl "XY]]".toList)) :=
  ⟨by decide, by decide, c3_eom_retention eomInit _ rfl (by decide) (by decide)⟩

/-! ### Claim C4: a partial delimiter is not a boundary -/

/-- C4: the transport input "1234]]>]]XYZ]]>]]>" decodes to the single
message "1234]]>]]XYZ" — the embedded partial delimiter "]]>]]" is ordinary
payload — and, in general, an EOM-mode step that completes a message does so
only at a position where the full six-byte delimiter occurs in the buffer. -/
theorem c4_partial_eom_not_boundary :
    decodeReads eomInit ["1234]]>]]XYZ]]>]]>".toList] = .ok ["1234]]>]]XYZ".toList] ∧
    (∀ (st st' : DecSt) (buf : List Char) (adv : Nat), st.mode = .eom →
      fsmStep st buf false = .step adv st' → st'.msgs ≠ st.msgs →
      begS tokenEOM (buf.drop (adv - 6)) = true) := by
  constructor
  · decide
  · intro st st' buf adv hmode hstep hmsgs
    rw [fsmStep_eom hmode] at hstep
    cases hF : findDelim buf with
    | some k =>
      rw [eomStep_some hF] at hstep
      injection hstep with h1 h2
      subst h1
      rw [show k + 6 - 6 = k from by omega]
      exact findDelim_some_begS hF
    | none =>
      by_cases hle : buf.length ≤ ovl buf
      · rw [eomStep_none_more hF hle] at hstep
        cases hstep
      · push_neg at hle
        rw [eomStep_none_emit hF hle] at hstep
        injection hstep with h1 h2
        exfalso
        apply hmsgs
        rw [← h2, pushTok_msgs]

/-- Witness for the boundary characterization of C4 at the buffer "AB]]>]]>". -/
theorem c4_partial_eom_not_boundary_witness :
    eomInit.mode = .eom ∧
    fsmStep eomInit "AB]]>]]>".toList false = .step 8 (flushMsg eomInit "AB".toList) ∧
    (flushMsg eomInit "AB".toList).msgs ≠ eomInit.msgs ∧
    begS tokenEOM ("AB]]>]]>".toList.drop (8 - 6)) = true :=
  ⟨rfl, by decide, by decide,
    c4_partial_eom_not_boundary.2 eomInit (flushMsg eomInit "AB".toList)
      "AB]]>]]>".toList 8 rfl (by decide) (by decide)⟩

/-! ### Claim C5: transport closing mid-message -/

/-- C5: whenever the end of input is reached with a non-empty residual that
contains no delimiter, the final EOM-mode invocation with atEnd set fails
with UnexpectedEof (never a clean Eof); in particular the transport input
"ABCDEF" followed by EOF decodes to UnexpectedEof. -/
theorem c5_missing_eom (st : DecSt) (res : List Char) (hmode : st.mode = .eom)
    (hF : findDelim res = none) (hne : res ≠ []) :
    fsmStep st res true = .done (.uEof st.msgs) ∧
    decodeReads eomInit ["ABCDEF".toList] = .uEof [] := by
  constructor
  · rw [fsmStep_eom hmode]
    exact eomStep_none_true_ne hF hne
  · decide

/-- Witness for C5 at the residual "ABCDEF". -/
theorem c5_missing_eom_witness :
    eomInit.mode = .eom ∧ findDelim "ABCDEF".toList = none ∧ "ABCDEF".toList ≠ [] ∧
    (fsmStep eomInit "ABCDEF".toList true = .done (.uEof eomInit.msgs) ∧
      decodeReads eomInit ["ABCDEF".toList] = .uEof []) :=
  ⟨rfl, by decide, by decide, c5_missing_eom eomInit _ rfl (by decide) (by decide)⟩

/-! ### Claim C6: chunked framing strips headers -/

/-- C6: after the switch to chunked framing, the transport input
"\n#6\n<rpc/>\n##\n" decodes to exactly the single message "<rpc/>": the
chunk header and the end-of-chunks marker are stripped and never reach the
consumer, and one end-of-chunks marker completes exactly one message; the
same holds in a full session that first decodes an EOM-framed hello. -/
theorem c6_chunked_simple :
    decodeReads (setChunked eomInit) ["\n#6\n<rpc/>\n##\n".toList] = .ok ["<rpc/>".toList] ∧
    runScript eomInit []
      [Ev.rd "<hello/>]]>]]>".toList, Ev.sw, Ev.rd "\n#6\n<rpc/>\n##\n".toList] =
      .ok ["<hello/>".toList, "<rpc/>".toList] :=
  ⟨by decide, by decide⟩

/-! ### Claim C7: a dangling EOM delimiter after the switch is skipped -/

/-- C7: in the `SwitchWithDanglingEOM` scenario the decoder reads "<hello/>"
in EOM mode, is switched to chunked framing, and then receives the dangling
delimiter "]]>]]>" followed by a chunked frame; the leading delimiter met in
ExpectHeader is skipped (completing the pending hello message) instead of
raising a framing error, so the session decodes to "<hello/>" then
"<rpc/>". -/
theorem c7_dangling_eom_skip :
    runScript eomInit []
      [Ev.rd "<hello/>".toList, Ev.sw, Ev.rd "]]>]]>\n#6\n<rpc/>\n##\n".toList] =
      .ok ["<hello/>".toList, "<rpc/>".toList] := by
  decide

/-! ### Claim C9: capability detection and the hello handshake -/

/-- C9: `PeerSupportsChunkedFraming` returns true exactly when the capability
list contains the exact string "urn:ietf:params:netconf:base:1.1", and the
hello handler enables chunked framing exactly when both the client's and the
server's capability lists satisfy that predicate. -/
theorem c9_peer_supports_chunked :
    CapBase11 = "urn:ietf:params:netconf:base:1.1" ∧
    (∀ caps : List String, PeerSupportsChunkedFraming caps = true ↔ CapBase11 ∈ caps) ∧
    (∀ clientCaps serverCaps : List String,
      handleHelloEnablesChunked clientCaps serverCaps = true ↔
        (CapBase11 ∈ clientCaps ∧ CapBase11 ∈ serverCaps)) := by
  have hiff : ∀ caps : List String,
      PeerSupportsChunkedFraming caps = true ↔ CapBase11 ∈ caps := by
    intro caps
    induction caps with
    | nil => simp [PeerSupportsChunkedFraming]
    | cons c rest ih =>
      by_cases hc : c = CapBase11
      · subst hc
        simp [PeerSupportsChunkedFraming]
      · rw [show PeerSupportsChunkedFraming (c :: rest) =
            PeerSupportsChunkedFraming rest from by
          conv_lhs => unfold PeerSupportsChunkedFraming
          rw [if_neg hc]]
        rw [ih, List.mem_cons]
        constructor
        · exact fun h => Or.inr h
        · rintro (h | h)
          · exact absurd h.symm hc
          · exact h
  refine ⟨rfl, hiff, ?_⟩
  intro cc sc
  rw [handleHelloEnablesChunked, Bool.and_eq_true, hiff, hiff]

/-! ### Claim C10: the trailer is written once per successful encode -/

/-- C10: `codec.Encoder.Encode` calls `EndOfMessage` exactly once when the
XML serialization succeeds (and then returns the trailer's result), and when
the XML serializer fails it returns that error and never calls
`EndOfMessage`. -/
theorem c10_encode_trailer_once :
    (∀ (xmlResult eomResult : Option String),
      ((codecEncode xmlResult eomResult).eomCalls = 1 ↔ xmlResult = none) ∧
      ((codecEncode xmlResult eomResult).eomCalls = 0 ↔ xmlResult ≠ none)) ∧
    (∀ (e : String) (eomResult : Option String),
      (codecEncode (some e) eomResult).result = some e) ∧
    (∀ eomResult : Option String, (codecEncode none eomResult).result = eomResult) := by
  refine ⟨?_, fun _ _ => rfl, fun _ => rfl⟩
  intro xres eomResult
  cases xres <;> simp [codecEncode]

end Rfc6242
